import Mathlib

/-!
# Verification of the hex-casting-ts runtime

Shallow embedding of the Hex interpreter: the hex-grid algebra
(`grid.ts` / `pattern.ts`), the iota value algebra (`iota.ts`), the
change-record virtual machine (`vm.ts` / `change.ts`) and the pattern-set
shorthand compiler (`index.ts`).  JavaScript strings are modelled as
`List Char`, JavaScript numbers used only as payloads as `Rat`, the
Cartesian snap arithmetic over `ℝ`.  A JavaScript exception is modelled as
`Option`/`Except` failure.
-/

namespace HexCasting

/-- The six compass directions of a pointy-top hex grid, in source order
`NORTH_EAST, EAST, SOUTH_EAST, SOUTH_WEST, WEST, NORTH_WEST` (enum values
0..5). -/
inductive HexDir where
  | northEast
  | east
  | southEast
  | southWest
  | west
  | northWest
deriving DecidableEq, Repr

/-- Numeric value of a `HexDir`, as the TypeScript enum. -/
def HexDir.val : HexDir → Nat
  | .northEast => 0
  | .east => 1
  | .southEast => 2
  | .southWest => 3
  | .west => 4
  | .northWest => 5

/-- Direction from a JavaScript number `0..5` (callers always reduce mod 6
first, exactly as the source computes `(… ) % 6`). -/
def HexDir.fromNum : Nat → HexDir
  | 0 => .northEast
  | 1 => .east
  | 2 => .southEast
  | 3 => .southWest
  | 4 => .west
  | _ => .northWest

/-- Turn amounts in sixths of a turn, in source order
`FORWARD, RIGHT, RIGHT_BACK, BACK, LEFT_BACK, LEFT` (enum values 0..5). -/
inductive HexAngle where
  | forward
  | right
  | rightBack
  | back
  | leftBack
  | left
deriving DecidableEq, Repr

/-- Numeric value of a `HexAngle`, as the TypeScript enum. -/
def HexAngle.val : HexAngle → Nat
  | .forward => 0
  | .right => 1
  | .rightBack => 2
  | .back => 3
  | .leftBack => 4
  | .left => 5

/-- Angle from a JavaScript number `0..5`. -/
def HexAngle.fromNum : Nat → HexAngle
  | 0 => .forward
  | 1 => .right
  | 2 => .rightBack
  | 3 => .back
  | 4 => .leftBack
  | _ => .left

/-- `HexPattern`: a start direction plus a sequence of angles
(`grid.ts` / `pattern.ts`, class `HexPattern`). -/
structure HexPattern where
  startDir : HexDir
  angles : List HexAngle
deriving DecidableEq, Repr

/-- `HexPattern.reversed` (grid.ts lines 217-222 / pattern.ts lines
271-276).  The source computes `this.angles.reduce((a, b) => a + b)`:
`Array.prototype.reduce` with no initial value throws a `TypeError` on an
empty array, so the result is `none` when `angles = []`.  On a non-empty
array `reduce` seeds the accumulator with the first element and folds the
rest. -/
def HexPattern.reversed (p : HexPattern) : Option HexPattern :=
  match p.angles with
  | [] => none
  | a :: rest =>
    let totalAngle := (rest.map HexAngle.val).foldl (· + ·) a.val
    let reverseDir := HexDir.fromNum ((p.startDir.val + totalAngle + 3) % 6)
    let reverseAngles := (p.angles.map (fun a => HexAngle.fromNum (a.val * 5 % 6))).reverse
    some ⟨reverseDir, reverseAngles⟩

/-- The character the source's `toString()` emits for each angle. -/
def HexAngle.char : HexAngle → Char
  | .forward => 'w'
  | .right => 'e'
  | .rightBack => 'd'
  | .back => 's'
  | .leftBack => 'a'
  | .left => 'q'

/-- The direction word the source's `toString()` emits. -/
def HexDir.chars : HexDir → List Char
  | .northEast => ['n', 'o', 'r', 't', 'h', 'e', 'a', 's', 't']
  | .east => ['e', 'a', 's', 't']
  | .southEast => ['s', 'o', 'u', 't', 'h', 'e', 'a', 's', 't']
  | .southWest => ['s', 'o', 'u', 't', 'h', 'w', 'e', 's', 't']
  | .west => ['w', 'e', 's', 't']
  | .northWest => ['n', 'o', 'r', 't', 'h', 'w', 'e', 's', 't']

/-- `HexPattern.toString()` (pattern.ts lines 229-255): the direction word,
a comma, then one character per angle. -/
def HexPattern.toChars (p : HexPattern) : List Char :=
  p.startDir.chars ++ [','] ++ p.angles.map HexAngle.char

/-- JavaScript `String.prototype.split(',')` on a character list:
`"".split(',') = [""]`, and every comma opens a new chunk. -/
def splitComma : List Char → List (List Char)
  | [] => [[]]
  | c :: rest =>
    if c = ',' then [] :: splitComma rest
    else
      match splitComma rest with
      | first :: others => (c :: first) :: others
      | [] => [[c]]

/-- The `switch (l)` over direction words in `HexPattern.parse`
(pattern.ts lines 203-212); the `default` case throws. -/
def parseDir (l : List Char) : Option HexDir :=
  if l = HexDir.chars .northEast then some .northEast
  else if l = HexDir.chars .east then some .east
  else if l = HexDir.chars .southEast then some .southEast
  else if l = HexDir.chars .northWest then some .northWest
  else if l = HexDir.chars .west then some .west
  else if l = HexDir.chars .southWest then some .southWest
  else none

/-- The `switch (c)` over angle characters in `HexPattern.parse`
(pattern.ts lines 214-224); the `default` case throws. -/
def parseAngleChar (c : Char) : Option HexAngle :=
  if c = 'w' then some .forward
  else if c = 'e' then some .right
  else if c = 'd' then some .rightBack
  else if c = 's' then some .back
  else if c = 'a' then some .leftBack
  else if c = 'q' then some .left
  else none

/-- The `Array.from(r).map(...)` loop of `HexPattern.parse`: decode each
angle character in order, failing on the first unknown one. -/
def parseAngles : List Char → Option (List HexAngle)
  | [] => some []
  | c :: rest => do
    let a ← parseAngleChar c
    let as ← parseAngles rest
    return a :: as

/-- `HexPattern.parse` (pattern.ts lines 200-227): split on `','`, decode
the direction word, then decode each angle character.  Any thrown
`Error` — an unknown direction, an unknown angle character, or a string
without a comma (destructuring leaves `r` undefined and `Array.from`
throws) — is modelled as `none`. -/
def HexPattern.parseChars (s : List Char) : Option HexPattern :=
  match splitComma s with
  | l :: r :: _ => do
    let startDir ← parseDir l
    let angles ← parseAngles r
    return ⟨startDir, angles⟩
  | _ => none

/-! ## Vector3 (iota.ts) -/

/-- The `Vector3` iota payload (iota.ts class `Vector3`); components are
JavaScript numbers, modelled as rationals. -/
structure Vector3 where
  x : Rat
  y : Rat
  z : Rat
deriving DecidableEq, Repr

/-- The argument type `PossibleVector3`: a `Vector3` instance, a
three-element array, or a plain `{x, y, z}` object. -/
inductive PossibleVector3 where
  | vec (v : Vector3)
  | arr (a b c : Rat)
  | obj (x y z : Rat)
deriving DecidableEq, Repr

/-- `Vector3.from` (iota.ts lines 509-517): instances pass through, arrays
spread into the constructor, and the plain-object fallback is the source's
`new Vector3(vec.x, vec.y, vec.y)`. -/
def Vector3.from : PossibleVector3 → Vector3
  | .vec v => v
  | .arr a b c => ⟨a, b, c⟩
  | .obj x y _ => ⟨x, y, y⟩

/-! ## Axial coordinates and snapping (grid.ts / pattern.ts class
`HexCoord`), over the real numbers -/

/-- `const SQRT_3 = Math.sqrt(3)`. -/
noncomputable def SQRT_3 : ℝ := Real.sqrt 3

/-- JavaScript `Math.round`: round half toward positive infinity. -/
noncomputable def jsRound (x : ℝ) : ℤ := ⌊x + 1 / 2⌋

/-- Axial coordinate pair (grid.ts class `HexCoord`): integer `q`, `r`. -/
structure HexCoord where
  q : ℤ
  r : ℤ
deriving DecidableEq, Repr

/-- `HexCoord.snap` (grid.ts lines 81-98): fractional axial coordinates
from the Cartesian point, rounded, then the axial-rounding fix applied to
whichever of the two has the larger rounded magnitude. -/
noncomputable def HexCoord.snap (x y : ℝ) : HexCoord :=
  let qf := SQRT_3 / 3 * x - 1 / 3 * y
  let rf := 2 / 3 * y
  let q := jsRound qf
  let r := jsRound rf
  let qf2 := qf - q
  let rf2 := rf - r
  if |q| ≥ |r| then ⟨q + jsRound (qf2 + 0.5 * rf2), r⟩
  else ⟨q, r + jsRound (rf2 + 0.5 * qf2)⟩

/-- `HexCoord.point` (grid.ts lines 105-109): the Cartesian centre of an
axial cell. -/
noncomputable def HexCoord.point (c : HexCoord) : ℝ × ℝ :=
  (SQRT_3 * c.q + SQRT_3 / 2 * c.r, 1.5 * c.r)

/-! ## The iota algebra and VM state (iota.ts, change.ts, vm.ts) -/

/-- The static `IotaType` tags (iota.ts lines 361-372).  `IotaType.equals`
is reference identity, and the only instances are these statics, so the
tags compare by name. -/
inductive TypeTag where
  | nullT
  | double
  | boolean
  | entity
  | list
  | pattern
  | garbage
  | vector
  | jump
  | string
  | iotaType
  | entityType
deriving DecidableEq, Repr

/-- `ResolvedPatternType` (vm.ts lines 266-280): the six resolution
statics. -/
inductive ResolvedPatternType where
  | UNRESOLVED
  | EVALUATED
  | ESCAPED
  | UNDONE
  | ERRORED
  | INVALID
deriving DecidableEq, Repr

/-- `EvalSound` (vm.ts lines 294-311): the seven sound statics (the source
spells the mishap sound `MISHASP`). -/
inductive EvalSound where
  | NOTHING
  | NORMAL_EXECUTE
  | SPELL
  | HERMES
  | THOTH
  | MUTE
  | MISHASP
deriving DecidableEq, Repr

/-- Modelled from the spec: the closed registry of built-in actions
(spec §4.2).  The pattern-registry source file is not under `src/` (only
its importers are), so the built-in action set is deep-embedded as a name,
and `execAction` below gives each name its behaviour following the spec's
action descriptions. -/
inductive ActionName where
  | intro
  | retro
  | consider
  | vacantRefl
  | singlesPurif
  | mindsRefl
  | numberRefl (v : Rat)
  | trueRefl
  | falseRefl
  | nullaryRefl
  | vectorRefl (x y z : Rat)
  | vectorExal
  | hermesGambit
  | thothsGambit
  | irisGambit
deriving DecidableEq, Repr

mutual

/-- The iota variants (iota.ts).  `pattern` carries its hex-walk, display
name, action and `mustEscape` flag; `continuation` carries a frame-stack
snapshot.  Entity properties are irrelevant to the runtime semantics and
are reduced to the names. -/
inductive Iota where
  | nullI
  | garbage
  | boolean (value : Bool)
  | double (value : Rat)
  | str (value : List Char)
  | vector3 (x y z : Rat)
  | entity (typeName : List Char) (name : List Char)
  | entityType (name : List Char)
  | pattern (shape : HexPattern) (name : List Char) (action : ActionName) (mustEscape : Bool)
  | list (values : List Iota)
  | continuation (cont : List Frame)
  | iotaType (tag : TypeTag)

/-- The continuation frames (vm.ts classes `HermesFrame`, `ThothFrame`). -/
inductive Frame where
  | hermes (patterns : List Iota) (capturesBrk : Bool)
  | thoth (data : List Iota) (code : List Iota) (baseStack : Option (List Iota)) (acc : List Iota)

end

/-- `ParenthesizedIota` (vm.ts lines 133-136). -/
structure ParenthesizedIota where
  iota : Iota
  escaped : Bool

/-- The declarative `Change` record (change.ts).  The `escapeConsider` /
`escapeIntro` / `escapeRetro` fields have TypeScript type `true?`, so their
presence is a boolean; `stackPop` and `framePop` are numbers whose absence
behaves as the falsy `0` in `VM.apply`'s truthiness tests. -/
structure Change where
  escapeConsider : Bool := false
  escapeRetro : Bool := false
  escapePush : Option Iota := none
  escapeIntro : Bool := false
  stackSet : Option (List Iota) := none
  stackPop : Nat := 0
  stackMove : Option (Nat × Nat) := none
  stackPush : Option (List Iota) := none
  frameSet : Option (List Frame) := none
  framePop : Nat := 0
  framePush : Option (List Frame) := none

/-- `CastResult` (vm.ts lines 8-16).  Side effects are opaque to the
runtime semantics and modelled as unit placeholders. -/
structure CastResult where
  cast : Iota
  diff : Change
  sideEffects : List Unit := []
  resolutionType : ResolvedPatternType := .EVALUATED
  sound : EvalSound := .NORMAL_EXECUTE

/-- `ActionResult = CastResult | Change` (vm.ts line 5). -/
inductive ActionResult where
  | result (r : CastResult)
  | change (c : Change)

/-- The host `Environment` (vm.ts lines 125-127): `caster()` supplies the
current caster entity. -/
structure Environment where
  caster : Iota

/-- The VM state tuple (vm.ts lines 138-147).  `parenCount` is a JavaScript
number that is only ever incremented and decremented by one, modelled as an
integer. -/
structure VM where
  stack : List Iota
  frames : List Frame
  parenCount : Int
  parenthesized : List ParenthesizedIota
  escapeNext : Bool

/-- `VM.START` (vm.ts line 139). -/
def VM.START : VM := ⟨[], [], 0, [], false⟩

/-- The `type()` method of each iota variant (iota.ts), as the tag it
returns. -/
def Iota.typeTag : Iota → TypeTag
  | .nullI => .nullT
  | .garbage => .garbage
  | .boolean _ => .boolean
  | .double _ => .double
  | .str _ => .string
  | .vector3 .. => .vector
  | .entity .. => .entity
  | .entityType _ => .entityType
  | .pattern .. => .pattern
  | .list _ => .list
  | .continuation _ => .jump
  | .iotaType _ => .iotaType

/-- The application of one `Change` record, following `VM.apply`'s loop
body (vm.ts lines 173-208) step by step: paren count, clear-on-zero,
escape push with the pre-change `escapeNext`, the `escapeNext` update
`change.escapeConsider ?? (escapeNext && change.escapePush === undefined)`,
then the stack fields and the frame fields.  `framePop` removes a single
last frame whenever the count is truthy, exactly as the source's
`toSpliced(frames.length - 1, 1)`. -/
def VM.applyChange (vm : VM) (change : Change) : VM :=
  let parenCount := vm.parenCount + (if change.escapeIntro then 1 else 0)
    - (if change.escapeRetro then 1 else 0)
  let parenthesized := if parenCount = 0 then [] else vm.parenthesized
  let parenthesized := match change.escapePush with
    | some i => parenthesized ++ [⟨i, vm.escapeNext⟩]
    | none => parenthesized
  let escapeNext := if change.escapeConsider then true
    else vm.escapeNext && change.escapePush.isNone
  let stack := change.stackSet.getD vm.stack
  let stack := if change.stackPop ≠ 0 then stack.take (stack.length - change.stackPop) else stack
  let stack := match change.stackMove with
    | some (f, t) => match stack.get? f with
      | some iota => ((stack.eraseIdx f).insertIdx t iota)
      | none => stack
    | none => stack
  let stack := stack ++ (change.stackPush.getD [])
  let frames := change.frameSet.getD vm.frames
  let frames := if change.framePop ≠ 0 then frames.dropLast else frames
  let frames := frames ++ (change.framePush.getD [])
  ⟨stack, frames, parenCount, parenthesized, escapeNext⟩

/-- `VM.apply(...diff)` (vm.ts lines 166-211): fold the change records
left to right. -/
def VM.apply (vm : VM) (diff : List Change) : VM :=
  diff.foldl VM.applyChange vm

/-- The loop body of `VM.get` (vm.ts lines 154-163): at step `i` read
`stack[stack.length - n + i]`, mishap on a tag mismatch against a non-null
requested type, and collect the iota. -/
def VM.getLoop (stack : List Iota) (n : Nat) : List (Option TypeTag) → Nat → Option (List Iota)
  | [], _ => some []
  | ty :: rest, i =>
    match stack[stack.length - n + i]? with
    | none => none
    | some iota =>
      match ty with
      | some t =>
        if iota.typeTag = t then (iota :: ·) <$> VM.getLoop stack n rest (i + 1)
        else none
      | none => (iota :: ·) <$> VM.getLoop stack n rest (i + 1)

/-- `VM.get` (vm.ts lines 149-164).  The thrown `'TODO: MISHAP'` errors are
modelled as `none`. -/
def VM.get (vm : VM) (tys : List (Option TypeTag)) : Option (List Iota) :=
  if vm.stack.length < tys.length then none
  else VM.getLoop vm.stack tys.length tys 0

/-- `VM.executeJump` (vm.ts lines 239-241). -/
def VM.executeJump (_vm : VM) (cast : Iota) (cont : List Frame) : CastResult :=
  { cast := cast, diff := { frameSet := some cont }, sideEffects := [],
    resolutionType := .EVALUATED, sound := .HERMES }

/-- Modelled from the spec: the behaviour of each built-in action
(spec §4.2); the registry source file itself is not under `src/`.
Mishaps raised by an action (`Retrospection` outside a quotation, a typed
pop on a short or ill-typed stack) are ERRORED cast results with the
mishap sound, per spec §7. -/
def execAction (a : ActionName) (self : Iota) (vm : VM) (env : Environment) : ActionResult :=
  match a with
  | .intro =>
    if vm.parenCount = 0 then .change { escapeIntro := true }
    else
      .result
        { cast := self, diff := { escapePush := some self, escapeIntro := true },
          resolutionType := .ESCAPED, sound := .NORMAL_EXECUTE }
  | .retro =>
    if vm.parenCount = 0 then
      .result { cast := self, diff := {}, resolutionType := .ERRORED, sound := .MISHASP }
    else if vm.parenCount = 1 then
      .change { escapeRetro := true,
                stackPush := some [.list (vm.parenthesized.map ParenthesizedIota.iota)] }
    else
      .result { cast := self, diff := { escapeRetro := true, escapePush := some self },
                resolutionType := .ESCAPED, sound := .NORMAL_EXECUTE }
  | .consider => .change { escapeConsider := true }
  | .vacantRefl => .change { stackPush := some [.list []] }
  | .singlesPurif =>
    match vm.stack.getLast? with
    | none => .result { cast := self, diff := {}, resolutionType := .ERRORED, sound := .MISHASP }
    | some x => .change { stackPop := 1, stackPush := some [.list [x]] }
  | .mindsRefl => .change { stackPush := some [env.caster] }
  | .numberRefl v => .change { stackPush := some [.double v] }
  | .trueRefl => .change { stackPush := some [.boolean true] }
  | .falseRefl => .change { stackPush := some [.boolean false] }
  | .nullaryRefl => .change { stackPush := some [.nullI] }
  | .vectorRefl x y z => .change { stackPush := some [.vector3 x y z] }
  | .vectorExal =>
    match vm.get [some .double, some .double, some .double] with
    | some [.double x, .double y, .double z] =>
      .change { stackPop := 3, stackPush := some [.vector3 x y z] }
    | _ => .result { cast := self, diff := {}, resolutionType := .ERRORED, sound := .MISHASP }
  | .hermesGambit =>
    match vm.stack.getLast? with
    | none => .result { cast := self, diff := {}, resolutionType := .ERRORED, sound := .MISHASP }
    | some x =>
      let vals := match x with
        | .list vs => vs
        | other => [other]
      .result { cast := self, diff := { stackPop := 1, framePush := some [.hermes vals true] },
                resolutionType := .EVALUATED, sound := .HERMES }
  | .thothsGambit =>
    match vm.get [some .list, some .list] with
    | some [.list instrs, .list datums] =>
      .result { cast := self,
                diff := { stackPop := 2, framePush := some [.thoth datums instrs none []] },
                resolutionType := .EVALUATED, sound := .THOTH }
    | _ => .result { cast := self, diff := {}, resolutionType := .ERRORED, sound := .MISHASP }
  | .irisGambit =>
    match vm.stack.getLast? with
    | none => .result { cast := self, diff := {}, resolutionType := .ERRORED, sound := .MISHASP }
    | some x =>
      let vals := match x with
        | .list vs => vs
        | other => [other]
      .result { cast := self,
                diff := { stackPop := 1, stackPush := some [.continuation vm.frames],
                          framePush := some [.hermes vals true] },
                resolutionType := .EVALUATED, sound := .HERMES }

/-- Whether `iota.execute` is defined: `Pattern` carries an `execute`
action field and `Continuation` has an `execute` method; no other variant
does (iota.ts). -/
def Iota.hasExecute : Iota → Bool
  | .pattern .. => true
  | .continuation _ => true
  | _ => false

/-- The test `iota instanceof Pattern && iota.mustEscape` from
`VM.execute`. -/
def Iota.isMustEscapePattern : Iota → Bool
  | .pattern _ _ _ me => me
  | _ => false

/-- Invoking `iota.execute` and normalising its result
(vm.ts lines 245-249): a `CastResult` passes through, a plain `Change` is
wrapped with the executed iota as `cast`.  The default branch is
unreachable under `hasExecute`. -/
def VM.runExecute (vm : VM) (iota : Iota) (env : Environment) : CastResult :=
  match iota with
  | .pattern sh n a me =>
    match execAction a (.pattern sh n a me) vm env with
    | .result r => r
    | .change c => { cast := .pattern sh n a me, diff := c }
  | .continuation cont => vm.executeJump (.continuation cont) cont
  | other => { cast := other, diff := {}, resolutionType := .INVALID, sound := .MISHASP }

/-- `VM.execute` (vm.ts lines 243-259): run the action when the iota has
one, `escapeNext` is clear, and either no quotation is open or the iota is
a must-escape pattern; otherwise escape the iota (into `parenthesized`
inside a quotation, onto the stack at top level); otherwise an INVALID
mishap result. -/
def VM.execute (vm : VM) (iota : Iota) (env : Environment) : CastResult :=
  if iota.hasExecute && !vm.escapeNext
      && (decide (vm.parenCount = 0) || iota.isMustEscapePattern) then
    vm.runExecute iota env
  else if vm.escapeNext || decide (vm.parenCount ≠ 0) then
    let change : Change := if vm.parenCount ≠ 0 then { escapePush := some iota }
      else { stackPush := some [iota] }
    { cast := iota, diff := change, resolutionType := .ESCAPED, sound := .NORMAL_EXECUTE }
  else
    { cast := iota, diff := {}, resolutionType := .INVALID, sound := .MISHASP }

/-- `HermesFrame.evaluate` / `ThothFrame.evaluate` (vm.ts lines 31-48 and
71-106).  `none` models the crash of `HermesFrame.evaluate` on an empty
`patterns` array: `const [head, ...rest] = this.patterns` leaves `head`
undefined and `vm.apply(newCont).execute(head, env)` throws a `TypeError`
reading `undefined.execute`.  The Thoth branch mirrors the mutable-`acc`
flow: on a revisit the current stack is appended to the accumulator before
the new frames and the final list are built. -/
def Frame.evaluateF : Frame → VM → Environment → Option CastResult
  | .hermes pats capturesBrk, vm, env =>
    match pats with
    | [] => none
    | head :: rest =>
      let newCont : Change :=
        { framePop := 1,
          framePush := if rest.length > 0 then some [.hermes rest capturesBrk] else none }
      let result := (vm.applyChange newCont).execute head env
      let diff := result.diff
      let diff := if rest.length > 0 then
          { diff with framePush := some (.hermes rest capturesBrk :: diff.framePush.getD []) }
        else diff
      let diff := { diff with framePop := diff.framePop + 1 }
      some { result with diff := diff }
  | .thoth data code baseStack acc, vm, _ =>
    let stack := baseStack.getD vm.stack
    let acc := match baseStack with
      | none => acc
      | some _ => acc ++ vm.stack
    let image2 : Change := { framePop := 1, stackSet := baseStack.map (fun _ => stack) }
    let image2 := match data with
      | head :: rest =>
        { image2 with stackPush := some [head],
                      framePush := some [.thoth rest code (some stack) acc, .hermes code false] }
      | [] => { image2 with stackPush := some [.list acc] }
    some
      { cast := .list code, diff := image2, resolutionType := .EVALUATED, sound := .THOTH }

/-- `VM.step` (vm.ts lines 213-215): evaluate the top frame if any.
`Except.error ()` models a thrown exception escaping `evaluate`;
`.ok none` is the source's `null` (no frames). -/
def VM.step (vm : VM) (env : Environment) : Except Unit (Option CastResult) :=
  match vm.frames.getLast? with
  | none => .ok none
  | some f =>
    match f.evaluateF vm env with
    | none => .error ()
    | some r => .ok (some r)

/-- The `while (result !== null)` drain loops inside `VM.run`
(vm.ts lines 221-225 and 230-234), with explicit fuel since a Hex program
can loop forever; exhausted fuel returns the state reached so far and a
thrown exception propagates as `none`. -/
def VM.drain : Nat → VM → Environment → Option VM
  | 0, vm, _ => some vm
  | fuel + 1, vm, env =>
    match vm.step env with
    | .error _ => none
    | .ok none => some vm
    | .ok (some r) => VM.drain fuel (vm.apply [r.diff]) env

/-- `VM.run` (vm.ts lines 217-237): for each external iota drain the frame
stack, then execute the iota and apply its diff; after the last iota drain
once more. -/
def VM.run (fuel : Nat) (vm : VM) (env : Environment) : List Iota → Option VM
  | [] => VM.drain fuel vm env
  | iota :: rest =>
    match VM.drain fuel vm env with
    | none => none
    | some vm1 => VM.run fuel (vm1.apply [(vm1.execute iota env).diff]) env rest

/-! ## The pattern registry constants and the shorthand compiler
(index.ts) -/

/-- Modelled from the spec: Introspection (`w,qqq`), a must-escape
pattern (spec §4.2). -/
def INTROSPECTION : Iota :=
  .pattern ⟨.west, [.left, .left, .left]⟩ "Introspection".toList .intro true

/-- Modelled from the spec: Retrospection (`e,eee`), a must-escape
pattern (spec §4.2). -/
def RETROSPECTION : Iota :=
  .pattern ⟨.east, [.right, .right, .right]⟩ "Retrospection".toList .retro true

/-- Modelled from the spec: Consideration (`w,qqqaw`), a must-escape
pattern (spec §4.2). -/
def CONSIDERATION : Iota :=
  .pattern ⟨.west, [.left, .left, .left, .leftBack, .forward]⟩ "Consideration".toList
    .consider true

/-- Modelled from the spec: Vacant Reflection (`ne,qqaeaae`), pushes an
empty list (spec §4.2). -/
def VACANT_REFL : Iota :=
  .pattern ⟨.northEast, [.left, .left, .leftBack, .right, .leftBack, .leftBack, .right]⟩
    "Vacant Reflection".toList .vacantRefl false

/-- Modelled from the spec: Single's Purification (`e,adeeed`), wraps the
top iota in a singleton list (spec §4.2). -/
def SINGLES_PURIF : Iota :=
  .pattern ⟨.east, [.leftBack, .rightBack, .right, .right, .right, .rightBack]⟩
    "Single's Purification".toList .singlesPurif false

/-- Modelled from the spec: Mind's Reflection (`ne,qaq`), pushes the
caster (spec §4.2). -/
def MINDS_REFL : Iota :=
  .pattern ⟨.northEast, [.left, .leftBack, .left]⟩ "Mind's Reflection".toList
    .mindsRefl false

/-- One element of the compiler input
`PossiblePatterns = (Pattern | PossiblePatterns)[]` (index.ts line 13):
either a pattern iota or a nested sequence. -/
inductive PatternsArg where
  | pat (p : Iota)
  | list (xs : List PatternsArg)

mutual

/-- Termination measure for the compiler: patterns weigh 1, a sequence
node weighs 3 plus its contents. -/
def PatternsArg.weight : PatternsArg → Nat
  | .pat _ => 1
  | .list xs => 3 + PatternsArg.weightList xs

/-- Total weight of a compiler input list. -/
def PatternsArg.weightList : List PatternsArg → Nat
  | [] => 0
  | x :: xs => x.weight + PatternsArg.weightList xs

end

/-- The inner `patterns(list, considerations)` closure of `Iota.patterns`
(index.ts lines 39-65): `flatMap` over the input; an empty sequence lowers
to Vacant Reflection; a singleton sequence whose element is a sequence
recurses with Single's Purification appended; a singleton sequence of a
must-escape pattern recurses through Consideration and Single's
Purification; any other sequence is wrapped in Introspection /
Retrospection with the consideration count doubled; a must-escape pattern
at `considerations > 1` is preceded by `considerations − 1`
Considerations. -/
def patternsGo : Nat → List PatternsArg → List Iota
  | _, [] => []
  | c, .list [] :: rest => VACANT_REFL :: patternsGo c rest
  | c, .list [.list inner] :: rest =>
    patternsGo c [.list inner, .pat SINGLES_PURIF] ++ patternsGo c rest
  | c, .list [.pat p] :: rest =>
    (if p.isMustEscapePattern then
      patternsGo c [.pat CONSIDERATION, .pat p, .pat SINGLES_PURIF]
    else
      INTROSPECTION :: (patternsGo (c * 2) [.pat p] ++ [RETROSPECTION])) ++ patternsGo c rest
  | c, .list xs :: rest =>
    (INTROSPECTION :: (patternsGo (c * 2) xs ++ [RETROSPECTION])) ++ patternsGo c rest
  | c, .pat p :: rest =>
    (if p.isMustEscapePattern && decide (c > 1) then
      List.replicate (c - 1) CONSIDERATION ++ [p]
    else [p]) ++ patternsGo c rest
termination_by _ l => PatternsArg.weightList l
decreasing_by
  all_goals simp [PatternsArg.weightList, PatternsArg.weight]
  all_goals omega

/-- `Iota.patterns(...list)` (index.ts lines 38-67): run the inner closure
with the default `considerations = 1`. -/
def Iota.patterns (list : List PatternsArg) : List Iota :=
  patternsGo 1 list

/-! # Supporting lemmas -/

/-- The angle map `α ↦ (5α) mod 6` used by `reversed` and `mirrored` is an
involution on the six angles. -/
theorem HexAngle.mul5_mod6_involutive (x : HexAngle) :
    HexAngle.fromNum ((HexAngle.fromNum (x.val * 5 % 6)).val * 5 % 6) = x := by
  cases x <;> rfl

theorem HexPattern.reversed_eq_none_iff (p : HexPattern) :
    p.reversed = none ↔ p.angles = [] := by
  unfold HexPattern.reversed
  cases p.angles <;> simp

theorem HexPattern.reversed_angles (p q : HexPattern) (h : p.reversed = some q) :
    q.angles = (p.angles.map fun a => HexAngle.fromNum (a.val * 5 % 6)).reverse := by
  unfold HexPattern.reversed at h
  cases hp : p.angles with
  | nil => rw [hp] at h; cases h
  | cons a rest =>
    rw [hp] at h
    simp only [Option.some.injEq] at h
    rw [← h]

/-- No direction word contains a comma. -/
theorem HexDir.comma_not_mem_chars (d : HexDir) : ',' ∉ d.chars := by
  cases d <;> decide

/-- No angle character is a comma. -/
theorem HexAngle.char_ne_comma (a : HexAngle) : a.char ≠ ',' := by
  cases a <;> decide

theorem splitComma_of_not_mem {l : List Char} (h : ',' ∉ l) : splitComma l = [l] := by
  induction l with
  | nil => rfl
  | cons c rest ih =>
    simp only [List.mem_cons, not_or] at h
    have hc : ¬c = ',' := fun hc => h.1 hc.symm
    simp [splitComma, hc, ih h.2]

theorem splitComma_append {xs ys : List Char} (h : ',' ∉ xs) :
    splitComma (xs ++ ',' :: ys) = xs :: splitComma ys := by
  induction xs with
  | nil => simp [splitComma]
  | cons c rest ih =>
    simp only [List.mem_cons, not_or] at h
    have hc : ¬c = ',' := fun hc => h.1 hc.symm
    simp [splitComma, hc, ih h.2]

theorem parseDir_chars (d : HexDir) : parseDir d.chars = some d := by
  cases d <;> rfl

theorem parseAngleChar_char (a : HexAngle) : parseAngleChar a.char = some a := by
  cases a <;> rfl

theorem parseAngles_map_char (as : List HexAngle) :
    parseAngles (as.map HexAngle.char) = some as := by
  induction as with
  | nil => rfl
  | cons a rest ih =>
    simp [parseAngles, parseAngleChar_char, ih]

theorem HexPattern.reversed_isSome (p : HexPattern) (h : p.angles ≠ []) :
    ∃ q, p.reversed = some q := by
  cases hq : p.reversed with
  | none => exact absurd ((reversed_eq_none_iff p).mp hq) h
  | some q => exact ⟨q, rfl⟩

/-! # Claim theorems -/

/-- C6 counterexample: `reversed` is not defined on every `HexPattern`.
On the pattern `east,` (empty angle sequence) the source's
`this.angles.reduce((a, b) => a + b)` throws a `TypeError`, so
`p.reversed().reversed()` is undefined there. -/
theorem reversed_undefined_on_empty_angles :
    HexPattern.reversed ⟨HexDir.east, []⟩ = none := rfl

/-- C6 (amended): for every `HexPattern` whose angle sequence is
non-empty, `p.reversed().reversed()` is defined and has the same angle
sequence as `p`. -/
theorem reversed_reversed_same_angles (p : HexPattern) (h : p.angles ≠ []) :
    ∃ q r, p.reversed = some q ∧ q.reversed = some r ∧ r.angles = p.angles := by
  obtain ⟨q, hq⟩ := p.reversed_isSome h
  have hqa := HexPattern.reversed_angles p q hq
  have hqne : q.angles ≠ [] := by
    rw [hqa]
    simpa using h
  obtain ⟨r, hr⟩ := q.reversed_isSome hqne
  refine ⟨q, r, hq, hr, ?_⟩
  have hra := HexPattern.reversed_angles q r hr
  rw [hra, hqa, List.map_reverse, List.reverse_reverse, List.map_map]
  have hff : ((fun a => HexAngle.fromNum (a.val * 5 % 6))
      ∘ fun a => HexAngle.fromNum (a.val * 5 % 6)) = id :=
    funext fun x => HexAngle.mul5_mod6_involutive x
  rw [hff, List.map_id]

/-- C6 witness: the amended theorem applied to the one-angle pattern
`east,q`. -/
theorem reversed_reversed_same_angles_witness :
    ∃ q r, HexPattern.reversed ⟨HexDir.east, [HexAngle.left]⟩ = some q
      ∧ q.reversed = some r ∧ r.angles = [HexAngle.left] :=
  reversed_reversed_same_angles ⟨HexDir.east, [HexAngle.left]⟩ (by decide)

/-- C7: `HexPattern.parse(p.toString())` returns `p` exactly, start
direction included, for every pattern. -/
theorem parse_toString_roundtrip (p : HexPattern) :
    HexPattern.parseChars p.toChars = some p := by
  obtain ⟨d, as⟩ := p
  have hnc : ',' ∉ as.map HexAngle.char := by
    simp only [List.mem_map, not_exists]
    intro a ⟨_, hc⟩
    exact HexAngle.char_ne_comma a hc
  have h1 : HexPattern.toChars ⟨d, as⟩
      = HexDir.chars d ++ (',' :: as.map HexAngle.char) := by
    simp [HexPattern.toChars]
  unfold HexPattern.parseChars
  rw [h1, splitComma_append (HexDir.comma_not_mem_chars d), splitComma_of_not_mem hnc]
  simp [parseDir_chars, parseAngles_map_char]

/-- C9: on a plain `{x, y, z}` object (neither a `Vector3` instance nor an
array) `Vector3.from` builds `Vector3(x, y, y)` — the z component is the
argument's y field. -/
theorem vector3_from_object_z_eq_y (x y z : Rat) :
    Vector3.from (.obj x y z) = ⟨x, y, y⟩ ∧ (Vector3.from (.obj x y z)).z = y :=
  ⟨rfl, rfl⟩

/-- C2: the shorthand compiler lowers the empty sequence literal to Vacant
Reflection, and the nested empty sequence to Vacant Reflection followed by
Single's Purification. -/
theorem patterns_empty_sequences :
    Iota.patterns [.list []] = [VACANT_REFL]
      ∧ Iota.patterns [.list [.list []]] = [VACANT_REFL, SINGLES_PURIF] := by
  constructor
  · simp [Iota.patterns, patternsGo]
  · simp [Iota.patterns, patternsGo, Iota.isMustEscapePattern, SINGLES_PURIF]

/-- C3: for every must-escape pattern `p`, the compiler emits
`escapeCount − 1` Considerations before `p` when `escapeCount > 1`
(`escapeCount` starts at 1 and doubles per nesting level), a singleton
`[p]` lowers through Consideration and Single's Purification, and
`patterns([[p], MINDS_REFL])` lowers to
`[I, C, C, C, p, S, M, R]`. -/
theorem patterns_mustEscape_considerations (p : Iota) (h : p.isMustEscapePattern = true) :
    (∀ c : Nat, 1 < c →
        patternsGo c [.pat p] = List.replicate (c - 1) CONSIDERATION ++ [p])
    ∧ Iota.patterns [.list [.pat p]] = [CONSIDERATION, p, SINGLES_PURIF]
    ∧ Iota.patterns [.list [.list [.pat p], .pat MINDS_REFL]]
      = [INTROSPECTION, CONSIDERATION, CONSIDERATION, CONSIDERATION, p,
         SINGLES_PURIF, MINDS_REFL, RETROSPECTION] := by
  have hC : CONSIDERATION.isMustEscapePattern = true := rfl
  have hS : SINGLES_PURIF.isMustEscapePattern = false := rfl
  have hM : MINDS_REFL.isMustEscapePattern = false := rfl
  refine ⟨fun c hc => ?_, ?_, ?_⟩
  · simp [patternsGo, h, hc]
  · simp [Iota.patterns, patternsGo, h, hC, hS]
  · simp [Iota.patterns, patternsGo, h, hC, hS, hM]

/-- C3 witness: the theorem instantiated at `p = Introspection` and
`escapeCount = 2`. -/
theorem patterns_mustEscape_considerations_witness :
    patternsGo 2 [.pat INTROSPECTION] = List.replicate 1 CONSIDERATION ++ [INTROSPECTION]
      ∧ Iota.patterns [.list [.pat INTROSPECTION]]
        = [CONSIDERATION, INTROSPECTION, SINGLES_PURIF] :=
  ⟨(patterns_mustEscape_considerations INTROSPECTION rfl).1 2 (by decide),
   (patterns_mustEscape_considerations INTROSPECTION rfl).2.1⟩

/-- The inner loop of `VM.get`, characterised: starting at offset `i` with
the remaining requested types, the loop mishaps exactly when some
remaining non-null type mismatches its slot's tag, and otherwise returns
the corresponding window of the stack. -/
theorem VM.getLoop_spec (stack : List Iota) (n : Nat) (hn : n ≤ stack.length) :
    ∀ (tys : List (Option TypeTag)) (i : Nat), i + tys.length = n →
      ((VM.getLoop stack n tys i = none ↔
        ∃ j t x, tys[j]? = some (some t)
          ∧ stack[stack.length - n + (i + j)]? = some x ∧ ¬x.typeTag = t)
       ∧ ∀ l, VM.getLoop stack n tys i = some l
          → l = stack.drop (stack.length - n + i)) := by
  intro tys
  induction tys with
  | nil =>
    intro i hi
    simp only [List.length_nil] at hi
    constructor
    · simp [VM.getLoop]
    · intro l hl
      simp only [VM.getLoop, Option.some.injEq] at hl
      subst hl
      have hk : stack.length - n + i = stack.length := by omega
      rw [hk, List.drop_length]
  | cons ty rest ih =>
    intro i hi
    simp only [List.length_cons] at hi
    have hik : stack.length - n + i < stack.length := by omega
    obtain ⟨w, hx⟩ : ∃ w, stack[stack.length - n + i]? = some w :=
      ⟨_, List.getElem?_eq_getElem hik⟩
    obtain ⟨hik2, hgx⟩ := List.getElem?_eq_some.mp hx
    have hdrop : stack.drop (stack.length - n + i)
        = w :: stack.drop (stack.length - n + i + 1) := by
      rw [List.drop_eq_getElem_cons hik, hgx]
    have hi1 : stack.length - n + (i + 1) = stack.length - n + i + 1 := by omega
    obtain ⟨ihiff, ihsome⟩ := ih (i + 1) (by omega)
    have hshift : (∃ j t x, rest[j]? = some (some t)
          ∧ stack[stack.length - n + (i + 1 + j)]? = some x ∧ ¬x.typeTag = t)
        ↔ ∃ j t x, (ty :: rest)[j]? = some (some t)
          ∧ stack[stack.length - n + (i + j)]? = some x ∧ ¬x.typeTag = t
          ∧ j ≠ 0 := by
      constructor
      · rintro ⟨j, t, x, h1, h2, h3⟩
        refine ⟨j + 1, t, x, by simpa using h1, ?_, h3, by omega⟩
        have : i + (j + 1) = i + 1 + j := by omega
        rw [this]
        exact h2
      · rintro ⟨j, t, x, h1, h2, h3, hj⟩
        obtain ⟨j', rfl⟩ : ∃ j', j = j' + 1 := ⟨j - 1, by omega⟩
        refine ⟨j', t, x, by simpa using h1, ?_, h3⟩
        have : i + 1 + j' = i + (j' + 1) := by omega
        rw [this]
        exact h2
    cases ty with
    | none =>
      simp only [VM.getLoop, hx]
      constructor
      · constructor
        · intro h
          have h0 : VM.getLoop stack n rest (i + 1) = none := by
            cases hc : VM.getLoop stack n rest (i + 1) with
            | none => rfl
            | some l => rw [hc] at h; simp at h
          obtain ⟨j, t, x, h1, h2, h3⟩ := ihiff.mp h0
          obtain ⟨j2, t2, x2, g1, g2, g3, _⟩ := hshift.mp ⟨j, t, x, h1, h2, h3⟩
          exact ⟨j2, t2, x2, g1, g2, g3⟩
        · rintro ⟨j, t, x, h1, h2, h3⟩
          have hj : j ≠ 0 := by
            intro h0
            subst h0
            simp at h1
          have h0 := ihiff.mpr (hshift.mpr ⟨j, t, x, h1, h2, h3, hj⟩)
          rw [h0]
          rfl
      · intro l hl
        cases hc : VM.getLoop stack n rest (i + 1) with
        | none => rw [hc] at hl; simp at hl
        | some l' =>
          rw [hc] at hl
          simp only [Option.map_some, Option.some.injEq] at hl
          subst hl
          rw [ihsome l' hc, hdrop, hi1]
    | some t0 =>
      simp only [VM.getLoop, hx]
      by_cases ht : w.typeTag = t0
      · rw [if_pos ht]
        constructor
        · constructor
          · intro h
            have h0 : VM.getLoop stack n rest (i + 1) = none := by
              cases hc : VM.getLoop stack n rest (i + 1) with
              | none => rfl
              | some l => rw [hc] at h; simp at h
            obtain ⟨j, t, x, h1, h2, h3⟩ := ihiff.mp h0
            obtain ⟨j2, t2, x2, g1, g2, g3, _⟩ := hshift.mp ⟨j, t, x, h1, h2, h3⟩
            exact ⟨j2, t2, x2, g1, g2, g3⟩
          · rintro ⟨j, t, x, h1, h2, h3⟩
            rcases Nat.eq_zero_or_pos j with hj | hj
            · subst hj
              simp only [List.getElem?_cons_zero, Option.some.injEq] at h1
              subst h1
              simp only [Nat.add_zero] at h2
              rw [hx] at h2
              simp only [Option.some.injEq] at h2
              subst h2
              exact absurd ht h3
            · have h0 := ihiff.mpr (hshift.mpr ⟨j, t, x, h1, h2, h3, by omega⟩)
              rw [h0]
              rfl
        · intro l hl
          cases hc : VM.getLoop stack n rest (i + 1) with
          | none => rw [hc] at hl; simp at hl
          | some l' =>
            rw [hc] at hl
            simp only [Option.map_some, Option.some.injEq] at hl
            subst hl
            rw [ihsome l' hc, hdrop, hi1]
      · rw [if_neg ht]
        constructor
        · constructor
          · intro _
            exact ⟨0, t0, w, by simp, by simp [hx], ht⟩
          · intro _
            rfl
        · intro l hl
          cases hl

/-- C5: `VM.get(t1,…,tn)` mishaps exactly when the stack holds fewer than
`n` iotas or some non-null `ti` mismatches the type tag of slot
`stack[len − n + i]`; otherwise it returns the top `n` stack iotas in
order (the leftmost argument bound to the deepest of those slots, i.e. the
result is the final window of the stack).  `get` reads the stack without
producing a change, so the VM state is untouched. -/
theorem get_mishap_iff (vm : VM) (tys : List (Option TypeTag)) :
    (vm.get tys = none ↔ vm.stack.length < tys.length
      ∨ ∃ i t x, tys[i]? = some (some t)
          ∧ vm.stack[vm.stack.length - tys.length + i]? = some x
          ∧ ¬x.typeTag = t)
    ∧ (∀ l, vm.get tys = some l
        → l = vm.stack.drop (vm.stack.length - tys.length)) := by
  unfold VM.get
  by_cases h : vm.stack.length < tys.length
  · rw [if_pos h]
    exact ⟨⟨fun _ => .inl h, fun _ => rfl⟩, fun l hl => by cases hl⟩
  · rw [if_neg h]
    have hspec := VM.getLoop_spec vm.stack tys.length (by omega) tys 0 (by omega)
    constructor
    · rw [hspec.1]
      constructor
      · rintro ⟨j, t, x, h1, h2, h3⟩
        exact .inr ⟨j, t, x, h1, by simpa using h2, h3⟩
      · rintro (hlt | ⟨j, t, x, h1, h2, h3⟩)
        · omega
        · exact ⟨j, t, x, h1, by simpa using h2, h3⟩
    · intro l hl
      simpa using hspec.2 l hl

/-- C5 witness: the positive half of the theorem evaluated on the
two-iota stack `[Double 1, Boolean true]` with requested types
`(Double, Boolean)`. -/
theorem get_mishap_iff_witness :
    [(Iota.double 1), .boolean true]
      = (VM.mk [.double 1, .boolean true] [] 0 [] false).stack.drop
          ((VM.mk [.double 1, .boolean true] [] 0 [] false).stack.length
            - [some TypeTag.double, some TypeTag.boolean].length) :=
  (get_mishap_iff (VM.mk [.double 1, .boolean true] [] 0 [] false)
      [some .double, some .boolean]).2 [.double 1, .boolean true] rfl

theorem jsRound_intCast (n : ℤ) : jsRound (n : ℝ) = n := by
  unfold jsRound
  rw [show (n : ℝ) + 1 / 2 = 1 / 2 + (n : ℝ) by ring, Int.floor_add_int]
  norm_num

theorem jsRound_zero : jsRound 0 = 0 := by
  unfold jsRound
  norm_num

/-- Snapping the Cartesian centre of any axial cell returns that cell. -/
theorem snap_point (c : HexCoord) : HexCoord.snap c.point.1 c.point.2 = c := by
  obtain ⟨q, r⟩ := c
  have h3 : SQRT_3 * SQRT_3 = 3 := Real.mul_self_sqrt (by norm_num)
  have hqf : SQRT_3 / 3 * (HexCoord.point ⟨q, r⟩).1 - 1 / 3 * (HexCoord.point ⟨q, r⟩).2
      = (q : ℝ) := by
    simp only [HexCoord.point]
    rw [show SQRT_3 / 3 * (SQRT_3 * (q : ℝ) + SQRT_3 / 2 * (r : ℝ)) - 1 / 3 * (1.5 * (r : ℝ))
        = SQRT_3 * SQRT_3 / 3 * (q : ℝ) + (SQRT_3 * SQRT_3 / 6 - 1 / 2) * (r : ℝ) by ring, h3]
    ring
  have hrf : 2 / 3 * (HexCoord.point ⟨q, r⟩).2 = (r : ℝ) := by
    simp only [HexCoord.point]
    ring
  simp only [HexCoord.snap, hqf, hrf, jsRound_intCast, sub_self]
  rw [show (0 : ℝ) + 0.5 * 0 = 0 by ring, jsRound_zero]
  split <;> simp

/-- C8: for every Cartesian point, re-snapping the centre of the snapped
cell gives the same cell — `snap` is idempotent on its own image. -/
theorem snap_point_snap (x y : ℝ) :
    HexCoord.snap (HexCoord.snap x y).point.1 (HexCoord.snap x y).point.2
      = HexCoord.snap x y :=
  snap_point (HexCoord.snap x y)

/-! ## The quotation-depth invariant (C4) -/

/-- The reachable-state invariant of the escape machinery: `parenCount` is
non-negative, and an empty quotation depth means an empty `parenthesized`
buffer (spec §3.3). -/
def ParenInv (vm : VM) : Prop :=
  0 ≤ vm.parenCount ∧ (vm.parenCount = 0 → vm.parenthesized = [])

/-- The paren count after one change record. -/
def Change.postCount (vm : VM) (c : Change) : Int :=
  vm.parenCount + (if c.escapeIntro then 1 else 0) - (if c.escapeRetro then 1 else 0)

/-- A change is safe for a state when the updated count stays non-negative
and any `escapePush` happens at positive depth. -/
def SafeFor (vm : VM) (c : Change) : Prop :=
  0 ≤ Change.postCount vm c ∧ (c.escapePush.isSome → Change.postCount vm c ≠ 0)

theorem VM.applyChange_parenCount (vm : VM) (c : Change) :
    (vm.applyChange c).parenCount = Change.postCount vm c := rfl

theorem VM.applyChange_parenthesized (vm : VM) (c : Change) :
    (vm.applyChange c).parenthesized =
      match c.escapePush with
      | some i => (if Change.postCount vm c = 0 then [] else vm.parenthesized)
          ++ [⟨i, vm.escapeNext⟩]
      | none => if Change.postCount vm c = 0 then [] else vm.parenthesized := rfl

theorem VM.apply_single (vm : VM) (c : Change) : vm.apply [c] = vm.applyChange c := rfl

theorem parenInv_applyChange {vm : VM} {c : Change}
    (hs : SafeFor vm c) : ParenInv (vm.applyChange c) := by
  constructor
  · rw [VM.applyChange_parenCount]
    exact hs.1
  · intro h0
    rw [VM.applyChange_parenCount] at h0
    rw [VM.applyChange_parenthesized]
    cases hp : c.escapePush with
    | some i => exact absurd h0 (hs.2 (by rw [hp]; rfl))
    | none => simp [h0]

theorem SafeFor_of_fields (vm : VM) (c : Change) (h0 : 0 ≤ vm.parenCount)
    (h1 : c.escapeIntro = false) (h2 : c.escapeRetro = false)
    (h3 : c.escapePush = none) : SafeFor vm c := by
  constructor
  · simp [Change.postCount, h1, h2]
    omega
  · simp [h3]

/-- Every built-in action produces a change that is safe for the state it
was computed from. -/
theorem execAction_safe (vm : VM) (a : ActionName) (self : Iota) (env : Environment)
    (h0 : 0 ≤ vm.parenCount) :
    SafeFor vm (match execAction a self vm env with
                | .result r => r.diff
                | .change c => c) := by
  cases a with
  | intro =>
    by_cases h : vm.parenCount = 0
    · simp only [execAction, if_pos h]
      constructor
      · simp [Change.postCount]
        omega
      · simp
    · simp only [execAction, if_neg h]
      constructor
      · simp [Change.postCount]
        omega
      · simp [Change.postCount]
        omega
  | retro =>
    by_cases h : vm.parenCount = 0
    · simp only [execAction, if_pos h]
      exact SafeFor_of_fields vm _ h0 rfl rfl rfl
    · by_cases h1 : vm.parenCount = 1
      · simp only [execAction, if_neg h, if_pos h1]
        constructor
        · simp [Change.postCount]
          omega
        · simp
      · simp only [execAction, if_neg h, if_neg h1]
        constructor
        · simp [Change.postCount]
          omega
        · simp [Change.postCount]
          omega
  | consider => exact SafeFor_of_fields vm _ h0 rfl rfl rfl
  | vacantRefl => exact SafeFor_of_fields vm _ h0 rfl rfl rfl
  | singlesPurif =>
    cases hg : vm.stack.getLast? with
    | none =>
      simp only [execAction, hg]
      exact SafeFor_of_fields vm _ h0 rfl rfl rfl
    | some x =>
      simp only [execAction, hg]
      exact SafeFor_of_fields vm _ h0 rfl rfl rfl
  | mindsRefl => exact SafeFor_of_fields vm _ h0 rfl rfl rfl
  | numberRefl v => exact SafeFor_of_fields vm _ h0 rfl rfl rfl
  | trueRefl => exact SafeFor_of_fields vm _ h0 rfl rfl rfl
  | falseRefl => exact SafeFor_of_fields vm _ h0 rfl rfl rfl
  | nullaryRefl => exact SafeFor_of_fields vm _ h0 rfl rfl rfl
  | vectorRefl x y z => exact SafeFor_of_fields vm _ h0 rfl rfl rfl
  | vectorExal =>
    cases hget : vm.get [some .double, some .double, some .double] with
    | none =>
      simp only [execAction, hget]
      exact SafeFor_of_fields vm _ h0 rfl rfl rfl
    | some l =>
      simp only [execAction, hget]
      split
      · rename_i r heq
        split at heq
        · simp at heq
        · injection heq with hh
          subst hh
          exact SafeFor_of_fields vm _ h0 rfl rfl rfl
      · rename_i c heq
        split at heq
        · injection heq with hh
          subst hh
          exact SafeFor_of_fields vm _ h0 rfl rfl rfl
        · simp at heq
  | hermesGambit =>
    cases hg : vm.stack.getLast? with
    | none =>
      simp only [execAction, hg]
      exact SafeFor_of_fields vm _ h0 rfl rfl rfl
    | some x =>
      simp only [execAction, hg]
      exact SafeFor_of_fields vm _ h0 rfl rfl rfl
  | thothsGambit =>
    cases hget : vm.get [some .list, some .list] with
    | none =>
      simp only [execAction, hget]
      exact SafeFor_of_fields vm _ h0 rfl rfl rfl
    | some l =>
      simp only [execAction, hget]
      split
      · rename_i r heq
        split at heq
        · injection heq with hh
          subst hh
          exact SafeFor_of_fields vm _ h0 rfl rfl rfl
        · injection heq with hh
          subst hh
          exact SafeFor_of_fields vm _ h0 rfl rfl rfl
      · rename_i c heq
        split at heq
        · simp at heq
        · simp at heq
  | irisGambit =>
    cases hg : vm.stack.getLast? with
    | none =>
      simp only [execAction, hg]
      exact SafeFor_of_fields vm _ h0 rfl rfl rfl
    | some x =>
      simp only [execAction, hg]
      exact SafeFor_of_fields vm _ h0 rfl rfl rfl

theorem runExecute_safe (vm : VM) (iota : Iota) (env : Environment)
    (h0 : 0 ≤ vm.parenCount) : SafeFor vm (vm.runExecute iota env).diff := by
  cases iota with
  | pattern sh n a me =>
    have h := execAction_safe vm a (.pattern sh n a me) env h0
    cases hr : execAction a (.pattern sh n a me) vm env with
    | result r =>
      rw [hr] at h
      simp only [VM.runExecute]
      rw [hr]
      simpa using h
    | change c =>
      rw [hr] at h
      simp only [VM.runExecute]
      rw [hr]
      simpa using h
  | continuation cont => exact SafeFor_of_fields vm _ h0 rfl rfl rfl
  | nullI => exact SafeFor_of_fields vm _ h0 rfl rfl rfl
  | garbage => exact SafeFor_of_fields vm _ h0 rfl rfl rfl
  | boolean b => exact SafeFor_of_fields vm _ h0 rfl rfl rfl
  | double v => exact SafeFor_of_fields vm _ h0 rfl rfl rfl
  | str s => exact SafeFor_of_fields vm _ h0 rfl rfl rfl
  | vector3 x y z => exact SafeFor_of_fields vm _ h0 rfl rfl rfl
  | entity t n => exact SafeFor_of_fields vm _ h0 rfl rfl rfl
  | entityType n => exact SafeFor_of_fields vm _ h0 rfl rfl rfl
  | list vs => exact SafeFor_of_fields vm _ h0 rfl rfl rfl
  | iotaType t => exact SafeFor_of_fields vm _ h0 rfl rfl rfl

/-- The diff of any `execute` result is safe for the state it was
computed from. -/
theorem execute_safe (vm : VM) (iota : Iota) (env : Environment)
    (h0 : 0 ≤ vm.parenCount) : SafeFor vm (vm.execute iota env).diff := by
  unfold VM.execute
  split
  · exact runExecute_safe vm iota env h0
  · split
    · show SafeFor vm (if vm.parenCount ≠ 0 then ({ escapePush := some iota } : Change)
        else { stackPush := some [iota] })
      split
      · rename_i h
        constructor
        · simp [Change.postCount]
          omega
        · simp [Change.postCount]
          omega
      · exact SafeFor_of_fields vm _ h0 rfl rfl rfl
    · exact SafeFor_of_fields vm _ h0 rfl rfl rfl

theorem SafeFor_pc (vm1 vm2 : VM) (c : Change) (hpc : vm1.parenCount = vm2.parenCount)
    (h : SafeFor vm1 c) : SafeFor vm2 c := by
  unfold SafeFor Change.postCount at *
  rw [← hpc]
  exact h

theorem SafeFor_fields_congr (vm : VM) (c' c : Change)
    (h1 : c'.escapeIntro = c.escapeIntro) (h2 : c'.escapeRetro = c.escapeRetro)
    (h3 : c'.escapePush = c.escapePush) (h : SafeFor vm c) : SafeFor vm c' := by
  unfold SafeFor Change.postCount at *
  rw [h1, h2, h3]
  exact h

/-- A successful `HermesFrame.evaluate` produces a diff safe for the
state: the frame bookkeeping change touches no escape state, and the
inner `execute` runs on a state with the same paren count. -/
theorem hermes_step_safe (vm : VM) (env : Environment) (head : Iota)
    (rest : List Iota) (b : Bool) (r : CastResult) (h0 : 0 ≤ vm.parenCount)
    (hf : Frame.evaluateF (.hermes (head :: rest) b) vm env = some r) :
    SafeFor vm r.diff := by
  cases rest with
  | nil =>
    simp only [Frame.evaluateF, Option.some.injEq] at hf
    subst hf
    have hpc : (vm.applyChange { framePop := 1 }).parenCount = vm.parenCount := by
      rw [VM.applyChange_parenCount]
      simp [Change.postCount]
    have hs := execute_safe (vm.applyChange { framePop := 1 }) head env
      (by rw [hpc]; exact h0)
    exact SafeFor_fields_congr vm _ _ rfl rfl rfl (SafeFor_pc _ _ _ hpc hs)
  | cons y ys =>
    simp only [Frame.evaluateF, Option.some.injEq, List.length_cons, gt_iff_lt,
      Nat.succ_pos, if_true, Nat.zero_lt_succ, ite_true] at hf
    subst hf
    have hpc : (vm.applyChange
        { framePop := 1, framePush := some [Frame.hermes (y :: ys) b] }).parenCount
        = vm.parenCount := by
      rw [VM.applyChange_parenCount]
      simp [Change.postCount]
    have hs := execute_safe
      (vm.applyChange { framePop := 1, framePush := some [Frame.hermes (y :: ys) b] })
      head env (by rw [hpc]; exact h0)
    exact SafeFor_fields_congr vm _ _ rfl rfl rfl (SafeFor_pc _ _ _ hpc hs)

/-- The diff of any successful `step` result is safe for the state. -/
theorem step_safe (vm : VM) (env : Environment) (r : CastResult)
    (h0 : 0 ≤ vm.parenCount) (h : vm.step env = .ok (some r)) : SafeFor vm r.diff := by
  unfold VM.step at h
  cases hl : vm.frames.getLast? with
  | none =>
    rw [hl] at h
    simp at h
  | some f =>
    simp only [hl] at h
    cases hf : f.evaluateF vm env with
    | none =>
      simp only [hf] at h
      simp at h
    | some r' =>
      simp only [hf, Except.ok.injEq, Option.some.injEq] at h
      subst h
      cases f with
      | hermes pats b =>
        cases pats with
        | nil => simp [Frame.evaluateF] at hf
        | cons head rest => exact hermes_step_safe vm env head rest b r' h0 hf
      | thoth data code baseStack acc =>
        cases data with
        | nil =>
          simp only [Frame.evaluateF, Option.some.injEq] at hf
          subst hf
          exact SafeFor_of_fields vm _ h0 rfl rfl rfl
        | cons d ds =>
          simp only [Frame.evaluateF, Option.some.injEq] at hf
          subst hf
          exact SafeFor_of_fields vm _ h0 rfl rfl rfl

/-- `ParenInv` is preserved by the drain loop. -/
theorem drain_inv (fuel : Nat) : ∀ (vm : VM) (env : Environment) (vm' : VM),
    ParenInv vm → VM.drain fuel vm env = some vm' → ParenInv vm' := by
  induction fuel with
  | zero =>
    intro vm env vm' h hd
    injection hd with hd
    subst hd
    exact h
  | succ n ih =>
    intro vm env vm' h hd
    unfold VM.drain at hd
    cases hs : vm.step env with
    | error e =>
      rw [hs] at hd
      simp at hd
    | ok o =>
      rw [hs] at hd
      cases o with
      | none =>
        simp only [Option.some.injEq] at hd
        subst hd
        exact h
      | some r =>
        refine ih _ env _ ?_ hd
        rw [VM.apply_single]
        exact parenInv_applyChange (step_safe vm env r h.1 hs)

/-- `ParenInv` is preserved by `run`. -/
theorem run_inv (fuel : Nat) : ∀ (iotas : List Iota) (vm : VM) (env : Environment)
    (vm' : VM), ParenInv vm → VM.run fuel vm env iotas = some vm' → ParenInv vm' := by
  intro iotas
  induction iotas with
  | nil =>
    intro vm env vm' h hr
    exact drain_inv fuel vm env vm' h hr
  | cons i rest ih =>
    intro vm env vm' h hr
    unfold VM.run at hr
    cases hd : VM.drain fuel vm env with
    | none =>
      rw [hd] at hr
      simp at hr
    | some vm1 =>
      rw [hd] at hr
      have h1 := drain_inv fuel vm env vm1 h hd
      refine ih _ env vm' ?_ hr
      rw [VM.apply_single]
      exact parenInv_applyChange (execute_safe vm1 i env h1.1)

/-- C4: every VM state reachable from `VM.START` by `run` satisfies
`parenCount = 0 → parenthesized = []`; equivalently, the invariant
(together with the non-negativity of `parenCount`) is preserved by
applying the diff of any `execute` result and of any successful `step`
result. -/
theorem run_parenCount_zero_parenthesized_empty :
    (∀ (fuel : Nat) (env : Environment) (iotas : List Iota) (vm' : VM),
      VM.run fuel VM.START env iotas = some vm' →
      vm'.parenCount = 0 → vm'.parenthesized = [])
    ∧ (∀ (vm : VM) (env : Environment) (iota : Iota), ParenInv vm →
      ParenInv (vm.applyChange (vm.execute iota env).diff))
    ∧ (∀ (vm : VM) (env : Environment) (r : CastResult), ParenInv vm →
      vm.step env = .ok (some r) → ParenInv (vm.applyChange r.diff)) := by
  refine ⟨?_, ?_, ?_⟩
  · intro fuel env iotas vm' hr
    exact (run_inv fuel iotas VM.START env vm' ⟨le_refl 0, fun _ => rfl⟩ hr).2
  · intro vm env iota h
    exact parenInv_applyChange (execute_safe vm iota env h.1)
  · intro vm env r h hs
    exact parenInv_applyChange (step_safe vm env r h.1 hs)

/-- C4 witness: the invariant through a concrete run of
`[Introspection, Double 2, Retrospection]`, and preservation at a concrete
escape step. -/
theorem run_parenCount_zero_parenthesized_empty_witness :
    ((VM.run 2 VM.START ⟨Iota.nullI⟩ [INTROSPECTION, .double 2, RETROSPECTION]
        = some (VM.mk [.list [.double 2]] [] 0 [] false))
      ∧ (VM.mk [.list [.double 2]] [] 0 [] false).parenthesized = [])
    ∧ ParenInv (VM.START.applyChange (VM.START.execute (.double 7) ⟨Iota.nullI⟩).diff) :=
  ⟨⟨rfl, run_parenCount_zero_parenthesized_empty.1 2 ⟨Iota.nullI⟩
      [INTROSPECTION, .double 2, RETROSPECTION] _ rfl rfl⟩,
   run_parenCount_zero_parenthesized_empty.2.1 VM.START ⟨Iota.nullI⟩ (.double 7)
     ⟨le_refl 0, fun _ => rfl⟩⟩

/-- C1 (evaluation at the failing input): in the state
`parenCount = 0, escapeNext = true`, executing an iota yields ESCAPED and
a diff that pushes the iota onto the stack — but after applying that diff
`escapeNext` is still `true`.  `VM.apply` (vm.ts line 183) only clears
`escapeNext` when an `escapePush` fires, so the claimed
`escapeNext ← false` transition does not happen on the stack-push escape
at top level. -/
theorem execute_escaped_keeps_escapeNext :
    let vm : VM := ⟨[], [], 0, [], true⟩
    let env : Environment := ⟨Iota.nullI⟩
    let r := vm.execute (.double 1) env
    r.resolutionType = .ESCAPED
      ∧ r.diff.stackPush = some [.double 1]
      ∧ (vm.applyChange r.diff).stack = [.double 1]
      ∧ (vm.applyChange r.diff).escapeNext = true :=
  ⟨rfl, rfl, rfl, rfl⟩

/-- C10: `HermesFrame.evaluate` crashes on an empty `patterns` list (the
destructured `head` is `undefined` and `execute` is applied to it) and
succeeds on any non-empty list; consequently a `ThothFrame` with remaining
data but an empty `code` list pushes a `HermesFrame([], false)` whose
evaluation makes the next `step` fail instead of returning a
`CastResult`. -/
theorem hermes_empty_patterns_crashes :
    (∀ (b : Bool) (vm : VM) (env : Environment),
      Frame.evaluateF (.hermes [] b) vm env = none)
    ∧ (∀ (b : Bool) (head : Iota) (rest : List Iota) (vm : VM) (env : Environment),
      (Frame.evaluateF (.hermes (head :: rest) b) vm env).isSome = true)
    ∧ (∀ (stack : List Iota) (frames : List Frame) (pc : Int)
        (par : List ParenthesizedIota) (esc : Bool) (env : Environment)
        (d : Iota) (rest : List Iota) (base : Option (List Iota)) (acc : List Iota),
      ∃ r, (VM.mk stack (frames ++ [.thoth (d :: rest) [] base acc]) pc par esc).step env
          = .ok (some r)
        ∧ ((VM.mk stack (frames ++ [.thoth (d :: rest) [] base acc]) pc par esc).apply
            [r.diff]).step env = .error ()) := by
  refine ⟨fun b vm env => rfl, fun b head rest vm env => rfl, ?_⟩
  intro stack frames pc par esc env d rest base acc
  have hcrash : ∀ (t : Frame) (vmX : VM),
      vmX.frames = frames ++ [t, Frame.hermes [] false] → vmX.step env = .error () := by
    intro t vmX h
    have h2 : vmX.frames.getLast? = some (Frame.hermes [] false) := by
      rw [h, show frames ++ [t, Frame.hermes [] false]
          = (frames ++ [t]) ++ [Frame.hermes [] false] by simp, List.getLast?_concat]
    simp only [VM.step, h2, Frame.evaluateF]
  cases base with
  | none =>
    have hl : (frames ++ [Frame.thoth (d :: rest) [] none acc]).getLast?
        = some (Frame.thoth (d :: rest) [] none acc) := List.getLast?_concat _
    refine ⟨{ cast := .list [],
              diff := { framePop := 1, stackPush := some [d],
                        framePush := some [.thoth rest [] (some stack) acc,
                          .hermes [] false] },
              resolutionType := .EVALUATED, sound := .THOTH }, ?_, ?_⟩
    · simp only [VM.step, hl, Frame.evaluateF]
      rfl
    · apply hcrash (.thoth rest [] (some stack) acc)
      simp [VM.apply, VM.applyChange, List.dropLast_concat]
  | some bs =>
    have hl : (frames ++ [Frame.thoth (d :: rest) [] (some bs) acc]).getLast?
        = some (Frame.thoth (d :: rest) [] (some bs) acc) := List.getLast?_concat _
    refine ⟨{ cast := .list [],
              diff := { framePop := 1, stackSet := some bs, stackPush := some [d],
                        framePush := some [.thoth rest [] (some bs) (acc ++ stack),
                          .hermes [] false] },
              resolutionType := .EVALUATED, sound := .THOTH }, ?_, ?_⟩
    · simp only [VM.step, hl, Frame.evaluateF]
      rfl
    · apply hcrash (.thoth rest [] (some bs) (acc ++ stack))
      simp [VM.apply, VM.applyChange, List.dropLast_concat]

end HexCasting

